import Mathlib

/-!
Verification of the Markdown-to-storage-format converter
(`_markdown_to_html` in agents/utils/confluence_helper.py) and of the
token-cost accountant (`get_cost` / `reset_tokens` in
agents/utils/claude_helper.py).

Python strings are modelled as `List Char`; each Python string primitive
used by the source (`replace` with and without a count, `in`, `split`,
`strip`, `startswith`, slicing, `join`) is embedded as an executable
function on character lists.
-/

set_option maxRecDepth 8000

abbrev Str := List Char

/-- Python `s.startswith(pat)`: `startsWith pat s` is true when `pat` is an
initial segment of `s`. -/
def startsWith : Str → Str → Bool
  | [], _ => true
  | _ :: _, [] => false
  | p :: ps, c :: cs => p == c && startsWith ps cs

/-- Python `pat in s` (substring containment). -/
def hasSubstr (pat : Str) : Str → Bool
  | [] => startsWith pat []
  | c :: cs => startsWith pat (c :: cs) || hasSubstr pat cs

/-- Python `s.replace(old, new, 1)`: replace only the leftmost occurrence,
leaving `s` unchanged when `old` does not occur. -/
def replaceFirst (pat rep : Str) : Str → Str
  | [] => []
  | c :: cs =>
    if startsWith pat (c :: cs) then rep ++ List.drop (pat.length - 1) cs
    else c :: replaceFirst pat rep cs

/-- Scanner for Python `s.replace(old, new)` (all occurrences, left to
right, non-overlapping).  The `Nat` argument counts characters of a matched
occurrence that remain to be skipped over. -/
def raAux (pat rep : Str) : Nat → Str → Str
  | _, [] => []
  | Nat.succ k, _ :: cs => raAux pat rep k cs
  | 0, c :: cs =>
    if startsWith pat (c :: cs) then rep ++ raAux pat rep (pat.length - 1) cs
    else c :: raAux pat rep 0 cs

/-- Python `s.replace(old, new)` (every occurrence). -/
def replaceAll (pat rep s : Str) : Str := raAux pat rep 0 s

/-- Lines 159-162 of `_markdown_to_html`: the five chained header
replacements, in source order. -/
def headerPass (s : Str) : Str :=
  replaceAll ("# ".toList) ("<h1>".toList)
    (replaceAll ("\n#".toList) ("</h2>\n<h1>".toList)
      (replaceAll ("## ".toList) ("<h2>".toList)
        (replaceAll ("\n##".toList) ("</h3>\n<h2>".toList)
          (replaceAll ("### ".toList) ("<h3>".toList) s))))

/-- The bold marker `**`. -/
def bb : Str := "**".toList

/-- The opening strong tag. -/
def sOpen : Str := "<strong>".toList

/-- The closing strong tag. -/
def sClose : Str := "</strong>".toList

/-- One iteration of the `while` body on line 166 of the source:
`html = html.replace('**', '<strong>', 1).replace('**', '</strong>', 1)`. -/
def boldStep (s : Str) : Str := replaceFirst bb sClose (replaceFirst bb sOpen s)

/-- The `while '**' in html` loop (lines 165-166), with explicit fuel. -/
def boldLoopF : Nat → Str → Str
  | 0, s => s
  | Nat.succ n, s => if hasSubstr bb s then boldLoopF n (boldStep s) else s

/-- Number of `*` characters in `s`; an upper bound on the loop iterations. -/
def countStar (s : Str) : Nat := List.count '*' s

/-- Lines 165-166 of the source: the bold loop, run with sufficient fuel
(`countStar s` iterations always reach the loop's exit condition). -/
def boldPass (s : Str) : Str := boldLoopF (countStar s) s

/-- Python `str.strip` whitespace test (ASCII whitespace characters). -/
def isPySpace (c : Char) : Bool :=
  c == ' ' || c == '\t' || c == '\n' || c == '\r' || c == Char.ofNat 11 || c == Char.ofNat 12

/-- Python `s.strip()`. -/
def stripStr (s : Str) : Str :=
  ((s.dropWhile isPySpace).reverse.dropWhile isPySpace).reverse

/-- Line 174 of the source: `line.strip().startswith('- ')`. -/
def isListLine (l : Str) : Bool := startsWith ("- ".toList) (stripStr l)

/-- Line 178 of the source: `f"<li>{line.strip()[2:]}</li>"`. -/
def listItem (l : Str) : Str :=
  "<li>".toList ++ (stripStr l).drop 2 ++ "</li>".toList

/-- The list-open tag appended on line 176. -/
def ulOpen : Str := "<ul>".toList

/-- The list-close tag appended on lines 181 and 186. -/
def ulClose : Str := "</ul>".toList

/-- Lines 170-186 of the source: the line loop building `result_lines`,
with the boolean mirroring `in_list` (including the trailing `</ul>`
appended after the loop when the final run reaches the last line). -/
def listLoop : Bool → List Str → List Str
  | inList, [] => if inList then [ulClose] else []
  | inList, l :: ls =>
    if isListLine l then
      (if inList then [] else [ulOpen]) ++ listItem l :: listLoop true ls
    else
      (if inList then [ulClose] else []) ++ l :: listLoop false ls

/-- Python `s.split('\n')`. -/
def splitNL : Str → List Str
  | [] => [[]]
  | c :: cs =>
    if c == '\n' then [] :: splitNL cs
    else
      match splitNL cs with
      | p :: ps => (c :: p) :: ps
      | [] => [[c]]

/-- Python `sep.join(parts)`. -/
def joinWith (sep : Str) : List Str → Str
  | [] => []
  | [p] => p
  | p :: q :: ps => p ++ sep ++ joinWith sep (q :: ps)

/-- Lines 168-188 of the source: split into lines, run the list loop, and
rejoin with newlines. -/
def listPass (s : Str) : Str := joinWith ("\n".toList) (listLoop false (splitNL s))

/-- Lines 190-192 of the source: replace every `\n\n` with `</p><p>` and
wrap the whole result in one paragraph pair. -/
def paraPass (s : Str) : Str :=
  "<p>".toList ++ replaceAll ("\n\n".toList) ("</p><p>".toList) s ++ "</p>".toList

/-- The code-block opening construct inserted on line 195 of the source. -/
def macOpen : Str :=
  "<ac:structured-macro ac:name=\"code\"><ac:plain-text-body><![CDATA[".toList

/-- The code-block closing construct of line 196 of the source. -/
def macClose : Str := "]]></ac:plain-text-body></ac:structured-macro>".toList

/-- A triple-backtick fence. -/
def fence : Str := "```".toList

/-- Lines 194-196 of the source: two successive global replaces of the
fence, the first inserting the opening construct, the second the closing
construct.  (Both lines search for the same fence string.) -/
def codePass (s : Str) : Str := replaceAll fence macClose (replaceAll fence macOpen s)

/-- The converter `_markdown_to_html` (confluence_helper.py lines 153-198):
headers, then bold, then lists, then paragraph wrapping, then code fences. -/
def markdown_to_html (s : Str) : Str :=
  codePass (paraPass (listPass (boldPass (headerPass s))))

/-- The mutable state of `ClaudeHelper`: the `tokens_used` counter. -/
structure ClaudeState where
  tokens_used : Nat

/-- The assignment `self.tokens_used = ...` on line 40 of claude_helper.py:
each call stores the new total, replacing the previous value. -/
def record_usage (st : ClaudeState) (total : Nat) : ClaudeState :=
  { tokens_used := total }

/-- The method `reset_tokens` (claude_helper.py lines 65-67). -/
def reset_tokens (st : ClaudeState) : ClaudeState := { tokens_used := 0 }

/-- Python `int(q)`: truncation toward zero. -/
def pyInt (q : ℚ) : ℤ := if 0 ≤ q then ⌊q⌋ else ⌈q⌉

/-- Round a rational to the nearest integer, ties to even (the rounding mode
of Python `round`). -/
def roundHalfEven (q : ℚ) : ℤ :=
  if q - (⌊q⌋ : ℚ) < 1/2 then ⌊q⌋
  else if (1:ℚ)/2 < q - (⌊q⌋ : ℚ) then ⌊q⌋ + 1
  else if ⌊q⌋ % 2 = 0 then ⌊q⌋ else ⌊q⌋ + 1

/-- Python `round(q, 4)` on an exact value. -/
def round4 (q : ℚ) : ℚ := (roundHalfEven (q * 10000) : ℚ) / 10000

/-- The method `get_cost` (claude_helper.py lines 52-63).  The Python source computes
with IEEE-754 doubles; this embedding uses exact rational arithmetic, which
agrees with the double computation at every token count at which the
function is evaluated in this file (a zero count makes every intermediate
double exact). -/
def get_cost (st : ClaudeState) : ℚ :=
  let input_tokens : ℤ := pyInt ((st.tokens_used : ℚ) * (7/10))
  let output_tokens : ℤ := pyInt ((st.tokens_used : ℚ) * (3/10))
  let input_cost : ℚ := ((input_tokens : ℚ) / 1000000) * 3
  let output_cost : ℚ := ((output_tokens : ℚ) / 1000000) * 15
  round4 (input_cost + output_cost)

/-- Specification shape for the list stage: a maximal run of consecutive
list lines becomes one list-open tag, one item per line of the run, and one
list-close tag; all other lines pass through unchanged. -/
def groupLists : List Str → List Str
  | [] => []
  | l :: ls =>
    if h : isListLine l then
      ulOpen :: ((l :: ls).takeWhile isListLine).map listItem
        ++ ulClose :: groupLists ((l :: ls).dropWhile isListLine)
    else l :: groupLists ls
termination_by x => x.length
decreasing_by
· have hle : ∀ (p : Str → Bool) (L : List Str), (L.dropWhile p).length ≤ L.length := by
    intro p L
    induction L with
    | nil => simp
    | cons a L ih =>
      rw [List.dropWhile_cons]
      by_cases hp : p a
      · simp only [hp, if_true]
        exact le_trans ih (by simp)
      · simp [hp]
  simp only [List.dropWhile_cons, h, if_true, List.length_cons]
  exact Nat.lt_succ_of_le (hle isListLine ls)
· simp only [List.length_cons]
  omega

/-- The backtick character. -/
def btick : Char := Char.ofNat 96

/-- Splits `s` at the first occurrence of `**`: the text strictly before it
and the text strictly after it, or `none` when `**` does not occur. -/
def firstSplit : Str → Option (Str × Str)
  | [] => none
  | [_] => none
  | c :: d :: t =>
    if c = '*' ∧ d = '*' then some ([], t)
    else (firstSplit (d :: t)).map (fun pt => (c :: pt.1, pt.2))

/-- Reference left-to-right scan for the bold stage: each `**` becomes,
alternately, the opening strong tag (when the flag is true) or the closing
one, so an odd number of occurrences ends on an opening tag. -/
def boldScan : Bool → Str → Str
  | _, [] => []
  | _, [c] => [c]
  | b, c :: d :: t =>
    if c = '*' ∧ d = '*' then (if b then sOpen else sClose) ++ boldScan (!b) t
    else c :: boldScan b (d :: t)

lemma bb_eq : bb = '*' :: '*' :: [] := by decide

lemma fs_cc (c d : Char) (t : Str) :
    firstSplit (c :: d :: t) =
      if c = '*' ∧ d = '*' then some ([], t)
      else (firstSplit (d :: t)).map (fun pt => (c :: pt.1, pt.2)) := rfl

lemma bs_cc (b : Bool) (c d : Char) (t : Str) :
    boldScan b (c :: d :: t) =
      if c = '*' ∧ d = '*' then (if b then sOpen else sClose) ++ boldScan (!b) t
      else c :: boldScan b (d :: t) := rfl

lemma startsWith_bb_cc (c d : Char) (t : Str) :
    startsWith bb (c :: d :: t) = ('*' == c && '*' == d) := by
  rw [bb_eq]; simp [startsWith]

lemma startsWith_bb_short (c : Char) : startsWith bb [c] = false := by
  rw [bb_eq]; simp [startsWith]

lemma startsWith_bb_of_not (c d : Char) (t : Str) (h : ¬(c = '*' ∧ d = '*')) :
    startsWith bb (c :: d :: t) = false := by
  rw [startsWith_bb_cc]
  rcases not_and_or.mp h with h1 | h1
  · have h2 : ('*' == c) = false := beq_eq_false_iff_ne.mpr (fun hh => h1 hh.symm)
    simp [h2]
  · have h2 : ('*' == d) = false := beq_eq_false_iff_ne.mpr (fun hh => h1 hh.symm)
    simp [h2]

lemma startsWith_bb_star (t : Str) : startsWith bb ('*' :: '*' :: t) = true := by
  rw [startsWith_bb_cc]; simp

lemma startsWith_bb_ne_true (c d : Char) (t : Str) (h : ¬(c = '*' ∧ d = '*')) :
    ¬ startsWith bb (c :: d :: t) = true := by
  rw [startsWith_bb_of_not c d t h]; simp

lemma rf_cons (pat rep : Str) (c : Char) (cs : Str) :
    replaceFirst pat rep (c :: cs) =
      if startsWith pat (c :: cs) then rep ++ List.drop (pat.length - 1) cs
      else c :: replaceFirst pat rep cs := rfl

lemma hs_cons (pat : Str) (c : Char) (cs : Str) :
    hasSubstr pat (c :: cs) = (startsWith pat (c :: cs) || hasSubstr pat cs) := rfl

lemma hs_nil : hasSubstr bb [] = false := by decide

lemma fs_replaceFirst : ∀ (s p t : Str), firstSplit s = some (p, t) →
    ∀ rep : Str, replaceFirst bb rep s = p ++ rep ++ t := by
  intro s
  induction s with
  | nil => intro p t h rep; simp [firstSplit] at h
  | cons c s ih =>
    intro p t h rep
    cases s with
    | nil => simp [firstSplit] at h
    | cons d t2 =>
      rw [fs_cc] at h
      by_cases hcd : c = '*' ∧ d = '*'
      · rw [if_pos hcd] at h
        obtain ⟨h1, h2⟩ := hcd
        subst h1; subst h2
        simp only [Option.some.injEq, Prod.mk.injEq] at h
        obtain ⟨hp, ht⟩ := h
        subst hp; subst ht
        rw [rf_cons, if_pos (startsWith_bb_star t2)]
        simp [bb_eq]
      · rw [if_neg hcd, Option.map_eq_some'] at h
        obtain ⟨⟨p2, t3⟩, hfs, heq⟩ := h
        simp only [Prod.mk.injEq] at heq
        obtain ⟨hp, ht⟩ := heq
        subst hp; subst ht
        rw [rf_cons, if_neg (startsWith_bb_ne_true c d t2 hcd), ih p2 t3 hfs rep]
        simp

lemma fs_boldScan : ∀ (s p t : Str), firstSplit s = some (p, t) →
    ∀ b, boldScan b s = p ++ (if b then sOpen else sClose) ++ boldScan (!b) t := by
  intro s
  induction s with
  | nil => intro p t h b; simp [firstSplit] at h
  | cons c s ih =>
    intro p t h b
    cases s with
    | nil => simp [firstSplit] at h
    | cons d t2 =>
      rw [fs_cc] at h
      by_cases hcd : c = '*' ∧ d = '*'
      · rw [if_pos hcd] at h
        simp only [Option.some.injEq, Prod.mk.injEq] at h
        obtain ⟨hp, ht⟩ := h
        subst hp; subst ht
        rw [bs_cc, if_pos hcd]
        simp
      · rw [if_neg hcd, Option.map_eq_some'] at h
        obtain ⟨⟨p2, t3⟩, hfs, heq⟩ := h
        simp only [Prod.mk.injEq] at heq
        obtain ⟨hp, ht⟩ := heq
        subst hp; subst ht
        rw [bs_cc, if_neg hcd, ih p2 t3 hfs b]
        simp

lemma fs_none_scan : ∀ s : Str, firstSplit s = none → ∀ b, boldScan b s = s := by
  intro s
  induction s with
  | nil => intro _ b; rfl
  | cons c s ih =>
    intro h b
    cases s with
    | nil => rfl
    | cons d t2 =>
      rw [fs_cc] at h
      by_cases hcd : c = '*' ∧ d = '*'
      · rw [if_pos hcd] at h; cases h
      · rw [if_neg hcd, Option.map_eq_none'] at h
        rw [bs_cc, if_neg hcd, ih h b]

lemma fs_none_rf : ∀ s : Str, firstSplit s = none → ∀ rep, replaceFirst bb rep s = s := by
  intro s
  induction s with
  | nil => intro _ rep; rfl
  | cons c s ih =>
    intro h rep
    cases s with
    | nil =>
      have hsw : ¬ startsWith bb [c] = true := by rw [startsWith_bb_short]; simp
      rw [rf_cons, if_neg hsw]
      rfl
    | cons d t2 =>
      rw [fs_cc] at h
      by_cases hcd : c = '*' ∧ d = '*'
      · rw [if_pos hcd] at h; cases h
      · rw [if_neg hcd, Option.map_eq_none'] at h
        rw [rf_cons, if_neg (startsWith_bb_ne_true c d t2 hcd), ih h rep]

lemma fs_hasSubstr : ∀ s : Str, hasSubstr bb s = (firstSplit s).isSome := by
  intro s
  induction s with
  | nil => rfl
  | cons c s ih =>
    cases s with
    | nil =>
      rw [hs_cons, startsWith_bb_short, hs_nil]
      rfl
    | cons d t2 =>
      rw [fs_cc]
      by_cases hcd : c = '*' ∧ d = '*'
      · obtain ⟨h1, h2⟩ := hcd
        subst h1; subst h2
        rw [hs_cons, startsWith_bb_star, if_pos ⟨rfl, rfl⟩]
        rfl
      · rw [hs_cons, startsWith_bb_of_not c d t2 hcd, if_neg hcd, Bool.false_or, ih]
        cases firstSplit (d :: t2) <;> rfl

lemma fs_some_shape : ∀ (c : Char) (s p t : Str), firstSplit (c :: s) = some (p, t) →
    p = [] ∨ ∃ p2, p = c :: p2 := by
  intro c s p t h
  cases s with
  | nil => simp [firstSplit] at h
  | cons d t2 =>
    rw [fs_cc] at h
    by_cases hcd : c = '*' ∧ d = '*'
    · rw [if_pos hcd] at h
      simp only [Option.some.injEq, Prod.mk.injEq] at h
      exact Or.inl h.1.symm
    · rw [if_neg hcd, Option.map_eq_some'] at h
      obtain ⟨⟨p2, t3⟩, _, heq⟩ := h
      simp only [Prod.mk.injEq] at heq
      exact Or.inr ⟨p2, heq.1.symm⟩

lemma fs_first_none : ∀ (s p t : Str), firstSplit s = some (p, t) → firstSplit p = none := by
  intro s
  induction s with
  | nil => intro p t h; simp [firstSplit] at h
  | cons c s ih =>
    intro p t h
    cases s with
    | nil => simp [firstSplit] at h
    | cons d t2 =>
      rw [fs_cc] at h
      by_cases hcd : c = '*' ∧ d = '*'
      · rw [if_pos hcd] at h
        simp only [Option.some.injEq, Prod.mk.injEq] at h
        rw [← h.1]; rfl
      · rw [if_neg hcd, Option.map_eq_some'] at h
        obtain ⟨⟨p2, t3⟩, hfs, heq⟩ := h
        simp only [Prod.mk.injEq] at heq
        obtain ⟨hp, _⟩ := heq
        subst hp
        have hnone : firstSplit p2 = none := ih p2 t3 hfs
        rcases fs_some_shape d t2 p2 t3 hfs with h0 | ⟨p4, h0⟩
        · rw [h0]; rfl
        · rw [h0] at hnone ⊢
          rw [fs_cc, if_neg hcd, hnone]
          rfl

lemma fs_decomp : ∀ (s p t : Str), firstSplit s = some (p, t) → s = p ++ '*' :: '*' :: t := by
  intro s
  induction s with
  | nil => intro p t h; simp [firstSplit] at h
  | cons c s ih =>
    intro p t h
    cases s with
    | nil => simp [firstSplit] at h
    | cons d t2 =>
      rw [fs_cc] at h
      by_cases hcd : c = '*' ∧ d = '*'
      · rw [if_pos hcd] at h
        obtain ⟨h1, h2⟩ := hcd
        subst h1; subst h2
        simp only [Option.some.injEq, Prod.mk.injEq] at h
        obtain ⟨hp, ht⟩ := h
        subst hp; subst ht
        rfl
      · rw [if_neg hcd, Option.map_eq_some'] at h
        obtain ⟨⟨p2, t3⟩, hfs, heq⟩ := h
        simp only [Prod.mk.injEq] at heq
        obtain ⟨hp, ht⟩ := heq
        subst hp; subst ht
        rw [List.cons_append, ← ih p2 t3 hfs]

lemma fs_count (s p t : Str) (h : firstSplit s = some (p, t)) :
    countStar s = countStar p + 2 + countStar t := by
  rw [countStar, fs_decomp s p t h]
  simp [List.count_append, List.count_cons, countStar]
  omega

lemma getLast?_append_some : ∀ (a b : Str) (c : Char), b.getLast? = some c →
    (a ++ b).getLast? = some c := by
  intro a
  induction a with
  | nil => intro b c h; simpa using h
  | cons x a ih =>
    intro b c h
    have h2 := ih b c h
    cases hab : a ++ b with
    | nil => rw [hab] at h2; cases h2
    | cons y ys =>
      rw [List.cons_append, hab, List.getLast?_cons_cons, ← hab]
      exact h2

lemma head?_append_some (a b : Str) (c : Char) (h : a.head? = some c) :
    (a ++ b).head? = some c := by
  cases a with
  | nil => cases h
  | cons x a2 =>
    simp only [List.head?_cons, Option.some.injEq] at h
    subst h
    rfl

lemma fs_append : ∀ (a b : Str), firstSplit a = none →
    (a.getLast? ≠ some '*' ∨ b.head? ≠ some '*') →
    firstSplit (a ++ b) = (firstSplit b).map (fun pt => (a ++ pt.1, pt.2)) := by
  intro a
  induction a with
  | nil =>
    intro b _ _
    rw [List.nil_append]
    cases hfb : firstSplit b <;> simp [hfb]
  | cons c a ih =>
    intro b hn hb
    cases a with
    | nil =>
      cases b with
      | nil => simp [firstSplit]
      | cons d rest =>
        rw [show ([c] ++ (d :: rest)) = c :: d :: rest from rfl, fs_cc]
        by_cases hcd : c = '*' ∧ d = '*'
        · exfalso
          rcases hb with h | h
          · exact h (by simp [hcd.1])
          · exact h (by simp [hcd.2])
        · rw [if_neg hcd]
          cases firstSplit (d :: rest) <;> simp
    | cons d a2 =>
      rw [fs_cc] at hn
      by_cases hcd : c = '*' ∧ d = '*'
      · rw [if_pos hcd] at hn; cases hn
      · rw [if_neg hcd, Option.map_eq_none'] at hn
        have hb2 : ((d :: a2).getLast? ≠ some '*' ∨ b.head? ≠ some '*') := by
          rcases hb with h | h
          · left; rwa [List.getLast?_cons_cons] at h
          · right; exact h
        have hrec := ih b hn hb2
        rw [show (c :: d :: a2) ++ b = c :: d :: (a2 ++ b) from rfl, fs_cc, if_neg hcd,
          show d :: (a2 ++ b) = (d :: a2) ++ b from rfl, hrec]
        cases firstSplit b <;> simp

lemma fs_append_none (a b : Str) (ha : firstSplit a = none) (hb : firstSplit b = none)
    (hcl : a.getLast? ≠ some '*' ∨ b.head? ≠ some '*') : firstSplit (a ++ b) = none := by
  rw [fs_append a b ha hcl, hb]
  rfl

lemma rf_append (a b rep : Str) (ha : firstSplit a = none)
    (hcl : a.getLast? ≠ some '*' ∨ b.head? ≠ some '*') :
    replaceFirst bb rep (a ++ b) = a ++ replaceFirst bb rep b := by
  cases hfb : firstSplit b with
  | none =>
    rw [fs_none_rf b hfb rep, fs_none_rf (a ++ b) (fs_append_none a b ha hfb hcl) rep]
  | some pt =>
    obtain ⟨p, t⟩ := pt
    have h2 : firstSplit (a ++ b) = some (a ++ p, t) := by
      rw [fs_append a b ha hcl, hfb]
      rfl
    rw [fs_replaceFirst _ _ _ h2 rep, fs_replaceFirst _ _ _ hfb rep]
    simp [List.append_assoc]

lemma hs_append (a b : Str) (ha : firstSplit a = none)
    (hcl : a.getLast? ≠ some '*' ∨ b.head? ≠ some '*') :
    hasSubstr bb (a ++ b) = hasSubstr bb b := by
  rw [fs_hasSubstr, fs_hasSubstr, fs_append a b ha hcl]
  cases firstSplit b <;> rfl

lemma fs_sOpen : firstSplit sOpen = none := by decide

lemma fs_sClose : firstSplit sClose = none := by decide

lemma sOpen_getLast : sOpen.getLast? = some '>' := by decide

lemma sClose_getLast : sClose.getLast? = some '>' := by decide

lemma sOpen_head : sOpen.head? = some '<' := by decide

lemma sClose_head : sClose.head? = some '<' := by decide

lemma boldStep_append (a t : Str) (ha : firstSplit a = none)
    (hal : a.getLast? ≠ some '*') : boldStep (a ++ t) = a ++ boldStep t := by
  rw [boldStep, boldStep, rf_append a t sOpen ha (Or.inl hal),
    rf_append a (replaceFirst bb sOpen t) sClose ha (Or.inl hal)]

lemma loop_id (s : Str) (h : hasSubstr bb s = false) : ∀ n, boldLoopF n s = s := by
  intro n
  cases n with
  | zero => rfl
  | succ n => simp [boldLoopF, h]

lemma loop_append (a : Str) (ha : firstSplit a = none) (hal : a.getLast? ≠ some '*') :
    ∀ (n : Nat) (t : Str), boldLoopF n (a ++ t) = a ++ boldLoopF n t := by
  intro n
  induction n with
  | zero => intro t; rfl
  | succ n ih =>
    intro t
    have hg : hasSubstr bb (a ++ t) = hasSubstr bb t := hs_append a t ha (Or.inl hal)
    cases ht : hasSubstr bb t with
    | false =>
      rw [loop_id (a ++ t) (hg.trans ht) (n + 1), loop_id t ht (n + 1)]
    | true =>
      simp only [boldLoopF, hg, ht, if_true]
      rw [boldStep_append a t ha hal]
      exact ih (boldStep t)

lemma boldScan_head : ∀ (b : Bool) (d : Char) (t : Str),
    (boldScan b (d :: t)).head? = some '<' ∨ (boldScan b (d :: t)).head? = some d := by
  intro b d t
  cases t with
  | nil => right; rfl
  | cons e t2 =>
    rw [bs_cc]
    by_cases hde : d = '*' ∧ e = '*'
    · rw [if_pos hde]
      left
      cases b
      · exact head?_append_some sClose _ '<' sClose_head
      · exact head?_append_some sOpen _ '<' sOpen_head
    · rw [if_neg hde]
      right
      rfl

lemma fs_boldScan_none : ∀ (n : Nat) (s : Str), s.length ≤ n → ∀ b : Bool,
    firstSplit (boldScan b s) = none := by
  intro n
  induction n with
  | zero =>
    intro s hs b
    have h0 : s = [] := List.length_eq_zero.mp (Nat.le_zero.mp hs)
    subst h0
    rfl
  | succ n ih =>
    intro s hs b
    match s with
    | [] => rfl
    | [c] => rfl
    | c :: d :: t =>
      rw [bs_cc]
      by_cases hcd : c = '*' ∧ d = '*'
      · rw [if_pos hcd]
        have hrec : firstSplit (boldScan (!b) t) = none := by
          apply ih t ?_ (!b)
          simp only [List.length_cons] at hs
          omega
        cases b
        · exact fs_append_none sClose _ fs_sClose hrec (Or.inl (by simp [sClose_getLast]))
        · exact fs_append_none sOpen _ fs_sOpen hrec (Or.inl (by simp [sOpen_getLast]))
      · rw [if_neg hcd]
        have hrec : firstSplit (boldScan b (d :: t)) = none := by
          apply ih (d :: t) ?_ b
          simp only [List.length_cons] at hs ⊢
          omega
        cases hcase : boldScan b (d :: t) with
        | nil => rfl
        | cons e X =>
          have he : e = '<' ∨ e = d := by
            rcases boldScan_head b d t with h | h <;> rw [hcase] at h <;>
              simp only [List.head?_cons, Option.some.injEq] at h
            · exact Or.inl h
            · exact Or.inr h
          have hce : ¬ (c = '*' ∧ e = '*') := by
            rcases he with he | he
            · rintro ⟨_, h2⟩
              rw [he] at h2
              cases h2
            · rintro ⟨h1, h2⟩
              exact hcd ⟨h1, he ▸ h2⟩
          rw [hcase] at hrec
          rw [fs_cc, if_neg hce, hrec]
          rfl

lemma bold_main : ∀ (n : Nat) (s : Str), countStar s ≤ n → boldLoopF n s = boldScan true s := by
  intro n
  induction n with
  | zero =>
    intro s hs
    have hfs : firstSplit s = none := by
      cases h : firstSplit s with
      | none => rfl
      | some pt =>
        obtain ⟨p, t⟩ := pt
        have := fs_count s p t h
        omega
    rw [show boldLoopF 0 s = s from rfl, fs_none_scan s hfs true]
  | succ n ih =>
    intro s hs
    cases h : firstSplit s with
    | none =>
      have hg : hasSubstr bb s = false := by rw [fs_hasSubstr, h]; rfl
      rw [loop_id s hg (n + 1), fs_none_scan s h true]
    | some pt =>
      obtain ⟨p, t⟩ := pt
      have hg : hasSubstr bb s = true := by rw [fs_hasSubstr, h]; rfl
      have hcnt : countStar s = countStar p + 2 + countStar t := fs_count s p t h
      have hp_none : firstSplit p = none := fs_first_none s p t h
      have hpo_none : firstSplit (p ++ sOpen) = none :=
        fs_append_none p sOpen hp_none fs_sOpen (Or.inr (by simp [sOpen_head]))
      have hpo_last : (p ++ sOpen).getLast? ≠ some '*' := by
        rw [getLast?_append_some p sOpen '>' sOpen_getLast]
        simp
      have hscan : boldScan true s = p ++ sOpen ++ boldScan false t := by
        have hb := fs_boldScan s p t h true
        simpa using hb
      simp only [boldLoopF, hg, if_true]
      rw [show boldStep s = replaceFirst bb sClose ((p ++ sOpen) ++ t) from by
        rw [boldStep, fs_replaceFirst s p t h sOpen]]
      rw [rf_append (p ++ sOpen) t sClose hpo_none (Or.inl hpo_last)]
      cases h2 : firstSplit t with
      | none =>
        rw [fs_none_rf t h2 sClose, loop_append (p ++ sOpen) hpo_none hpo_last n t]
        have hgt : hasSubstr bb t = false := by rw [fs_hasSubstr, h2]; rfl
        rw [loop_id t hgt n, hscan, fs_none_scan t h2 false]
      | some pt2 =>
        obtain ⟨p2, t2⟩ := pt2
        rw [fs_replaceFirst t p2 t2 h2 sClose]
        have hA_none : firstSplit ((p ++ sOpen) ++ (p2 ++ sClose)) = none := by
          apply fs_append_none _ _ hpo_none
          · exact fs_append_none p2 sClose (fs_first_none t p2 t2 h2) fs_sClose
              (Or.inr (by simp [sClose_head]))
          · exact Or.inl hpo_last
        have hA_last : ((p ++ sOpen) ++ (p2 ++ sClose)).getLast? ≠ some '*' := by
          rw [getLast?_append_some _ _ '>' (getLast?_append_some p2 sClose '>' sClose_getLast)]
          simp
        rw [show (p ++ sOpen) ++ (p2 ++ sClose ++ t2)
            = ((p ++ sOpen) ++ (p2 ++ sClose)) ++ t2 from by simp [List.append_assoc]]
        rw [loop_append _ hA_none hA_last n t2]
        have hct : countStar t = countStar p2 + 2 + countStar t2 := fs_count t p2 t2 h2
        rw [ih t2 (by omega), hscan]
        have hscan2 : boldScan false t = p2 ++ sClose ++ boldScan true t2 := by
          have hb := fs_boldScan t p2 t2 h2 false
          simpa using hb
        rw [hscan2]
        simp [List.append_assoc]

/-- Claim C4: the bold stage replaces each `**`, scanning left to right,
alternately by an opening then a closing strong tag (`boldScan true` is that
scan, and it leaves a trailing unmatched opening tag on an odd count); in
particular `convert("**bold**")` brackets `bold` in one strong pair, and
`convert("**a**b**")` ends in an unmatched opening tag. -/
theorem c4_bold_alternates :
    (∀ s : Str, boldPass s = boldScan true s)
      ∧ markdown_to_html ("**bold**".toList) = "<p><strong>bold</strong></p>".toList
      ∧ markdown_to_html ("**a**b**".toList) = "<p><strong>a</strong>b<strong></p>".toList := by
  refine ⟨fun s => bold_main (countStar s) s le_rfl, by decide, by decide⟩

/-- Claim C6: the converter is total.  Its only loop, the bold-marker loop,
terminates on every input: `countStar s` iterations of fuel always reach the
exit condition (extra fuel changes nothing), and on exit no `**` remains, so
the guard is false and the Python `while` loop stops. -/
theorem c6_convert_total :
    ∀ (s : Str) (k : Nat),
      boldLoopF (countStar s + k) s = boldPass s
        ∧ hasSubstr bb (boldPass s) = false := by
  intro s k
  constructor
  · rw [bold_main (countStar s + k) s (by omega), boldPass, bold_main (countStar s) s le_rfl]
  · rw [boldPass, bold_main (countStar s) s le_rfl, fs_hasSubstr,
      fs_boldScan_none s.length s le_rfl true]
    rfl

lemma ll_cons (inList : Bool) (l : Str) (ls : List Str) :
    listLoop inList (l :: ls) =
      if isListLine l then
        (if inList then [] else [ulOpen]) ++ listItem l :: listLoop true ls
      else
        (if inList then [ulClose] else []) ++ l :: listLoop false ls := rfl

lemma listLoop_eq_groupLists : ∀ ls : List Str,
    listLoop false ls = groupLists ls
      ∧ listLoop true ls
          = (ls.takeWhile isListLine).map listItem
              ++ ulClose :: groupLists (ls.dropWhile isListLine) := by
  intro ls
  induction ls with
  | nil =>
    have hg : groupLists [] = [] := by simp [groupLists]
    constructor
    · rw [hg]; rfl
    · rw [List.takeWhile_nil, List.dropWhile_nil, List.map_nil, List.nil_append, hg]
      rfl
  | cons l ls ih =>
    obtain ⟨ihf, iht⟩ := ih
    by_cases h : isListLine l
    · constructor
      · rw [ll_cons, if_pos h, if_neg (by simp)]
        rw [show groupLists (l :: ls)
            = ulOpen :: ((l :: ls).takeWhile isListLine).map listItem
                ++ ulClose :: groupLists ((l :: ls).dropWhile isListLine) from by
          rw [groupLists]; rw [dif_pos h]]
        rw [List.takeWhile_cons, if_pos h, List.dropWhile_cons, if_pos h]
        simp only [List.map_cons, List.cons_append, List.singleton_append, List.nil_append]
        rw [iht]
      · rw [ll_cons, if_pos h, if_pos rfl]
        rw [List.takeWhile_cons, if_pos h, List.dropWhile_cons, if_pos h]
        simp only [List.map_cons, List.cons_append, List.nil_append, List.singleton_append]
        rw [iht]
    · constructor
      · rw [ll_cons, if_neg h, if_neg (by simp)]
        rw [show groupLists (l :: ls) = l :: groupLists ls from by
          rw [groupLists]; rw [dif_neg h]]
        rw [List.nil_append, ihf]
      · rw [ll_cons, if_neg h, if_pos rfl]
        rw [List.takeWhile_cons, if_neg h, List.dropWhile_cons, if_neg h]
        rw [show groupLists (l :: ls) = l :: groupLists ls from by
          rw [groupLists]; rw [dif_neg h]]
        simp only [List.map_nil, List.nil_append, List.singleton_append]
        rw [ihf]

/-- Claim C5: each maximal run of consecutive lines whose stripped content
starts with `"- "` becomes one list-open tag, one item tag per line of the
run holding the text after the `"- "` prefix, and one list-close tag
(emitted also at end of input); in particular
`convert("- x\n- y\n- z")` yields one `<ul>`, items `x`, `y`, `z`, one
`</ul>`. -/
theorem c5_list_runs :
    (∀ ls : List Str, listLoop false ls = groupLists ls)
      ∧ markdown_to_html ("- x\n- y\n- z".toList)
          = "<p><ul>\n<li>x</li>\n<li>y</li>\n<li>z</li>\n</ul></p>".toList := by
  refine ⟨fun ls => (listLoop_eq_groupLists ls).1, by decide⟩

lemma fence_eq : fence = btick :: btick :: btick :: [] := by decide

lemma ra_skip (pat rep : Str) : ∀ (k : Nat) (s : Str),
    raAux pat rep k s = raAux pat rep 0 (List.drop k s) := by
  intro k
  induction k with
  | zero => intro s; rw [List.drop_zero]
  | succ k ih =>
    intro s
    cases s with
    | nil => rfl
    | cons c cs =>
      rw [show raAux pat rep (k + 1) (c :: cs) = raAux pat rep k cs from rfl, ih cs,
        List.drop_succ_cons]

lemma ra_nil (pat rep : Str) : replaceAll pat rep [] = [] := rfl

lemma ra_cons (pat rep : Str) (c : Char) (cs : Str) :
    replaceAll pat rep (c :: cs) =
      if startsWith pat (c :: cs) then rep ++ replaceAll pat rep (List.drop (pat.length - 1) cs)
      else c :: replaceAll pat rep cs := by
  rw [replaceAll, show raAux pat rep 0 (c :: cs)
      = if startsWith pat (c :: cs) then rep ++ raAux pat rep (pat.length - 1) cs
        else c :: raAux pat rep 0 cs from rfl]
  rw [ra_skip pat rep (pat.length - 1) cs]
  rfl

lemma startsWith_fence_false (c : Char) (cs : Str) (h : ¬ c = btick) :
    startsWith fence (c :: cs) = false := by
  rw [fence_eq]
  have h2 : (btick == c) = false := beq_eq_false_iff_ne.mpr (fun hh => h hh.symm)
  simp [startsWith, h2]

lemma startsWith_fence_btick (t : Str) :
    startsWith fence (btick :: btick :: btick :: t) = true := by
  rw [fence_eq]
  simp [startsWith]

lemma swf_shape : ∀ l : Str, startsWith fence l = true →
    ∃ t, l = btick :: btick :: btick :: t := by
  intro l h
  rw [fence_eq] at h
  cases l with
  | nil => simp [startsWith] at h
  | cons c l1 =>
    simp only [startsWith, Bool.and_eq_true, beq_iff_eq] at h
    obtain ⟨hc, h⟩ := h
    cases l1 with
    | nil => simp [startsWith] at h
    | cons d l2 =>
      simp only [startsWith, Bool.and_eq_true, beq_iff_eq] at h
      obtain ⟨hd, h⟩ := h
      cases l2 with
      | nil => simp [startsWith] at h
      | cons e l3 =>
        simp only [startsWith, Bool.and_eq_true, beq_iff_eq] at h
        exact ⟨l3, by rw [← hc, ← hd, ← h.1]⟩

lemma startsWith_append_mono : ∀ (p l z : Str), startsWith p l = true →
    startsWith p (l ++ z) = true := by
  intro p
  induction p with
  | nil => intro l z _; rfl
  | cons x p2 ih =>
    intro l z h
    cases l with
    | nil => simp [startsWith] at h
    | cons c l2 =>
      simp only [List.cons_append, startsWith, Bool.and_eq_true] at h ⊢
      exact ⟨h.1, ih l2 z h.2⟩

lemma ra_fence_pre : ∀ (a b rep : Str), (∀ c ∈ a, ¬ c = btick) →
    replaceAll fence rep (a ++ b) = a ++ replaceAll fence rep b := by
  intro a
  induction a with
  | nil => intro b rep _; rfl
  | cons c a2 ih =>
    intro b rep h
    have hc : ¬ c = btick := h c (by simp)
    have hsw : ¬ startsWith fence (c :: (a2 ++ b)) = true := by
      rw [startsWith_fence_false c (a2 ++ b) hc]
      simp
    rw [List.cons_append, ra_cons, if_neg hsw, ih b rep (fun x hx => h x (by simp [hx]))]
    rfl

lemma ra_fence_id : ∀ (z rep : Str), btick ∉ z → replaceAll fence rep z = z := by
  intro z
  induction z with
  | nil => intro rep _; rfl
  | cons c z2 ih =>
    intro rep hz
    have hc : ¬ c = btick := fun hh => hz (by simp [hh])
    have hsw : ¬ startsWith fence (c :: z2) = true := by
      rw [startsWith_fence_false c z2 hc]
      simp
    rw [ra_cons, if_neg hsw, ih rep (fun hh => hz (by simp [hh]))]

lemma ra_fence_suf : ∀ (n : Nat) (b z rep : Str), b.length ≤ n → btick ∉ z →
    replaceAll fence rep (b ++ z) = replaceAll fence rep b ++ z := by
  intro n
  induction n with
  | zero =>
    intro b z rep hb hz
    have h0 : b = [] := List.length_eq_zero.mp (Nat.le_zero.mp hb)
    subst h0
    rw [List.nil_append, ra_nil, List.nil_append, ra_fence_id z rep hz]
  | succ n ih =>
    intro b z rep hb hz
    cases b with
    | nil => rw [List.nil_append, ra_nil, List.nil_append, ra_fence_id z rep hz]
    | cons c b2 =>
      rw [List.cons_append, ra_cons]
      by_cases hsw : startsWith fence (c :: (b2 ++ z)) = true
      · rw [if_pos hsw]
        obtain ⟨t, ht⟩ := swf_shape _ hsw
        injection ht with hc ht2
        cases b2 with
        | nil =>
          exfalso
          rw [List.nil_append] at ht2
          exact hz (by rw [ht2]; simp)
        | cons d b3 =>
          rw [List.cons_append] at ht2
          injection ht2 with hd ht3
          cases b3 with
          | nil =>
            exfalso
            rw [List.nil_append] at ht3
            exact hz (by rw [ht3]; simp)
          | cons e b4 =>
            rw [List.cons_append] at ht3
            injection ht3 with he ht4
            have hlen : fence.length - 1 = 2 := by decide
            rw [hlen, show List.drop 2 ((d :: e :: b4) ++ z) = b4 ++ z from rfl]
            rw [ih b4 z rep (by simp only [List.length_cons] at hb; omega) hz]
            have hsw2 : startsWith fence (c :: d :: e :: b4) = true := by
              rw [hc, hd, he]
              exact startsWith_fence_btick b4
            rw [ra_cons, if_pos hsw2, hlen, show List.drop 2 (d :: e :: b4) = b4 from rfl]
            simp [List.append_assoc]
      · rw [if_neg hsw]
        have hsw2 : ¬ startsWith fence (c :: b2) = true := fun hh => hsw (by
          have hm := startsWith_append_mono fence (c :: b2) z hh
          rwa [List.cons_append] at hm)
        rw [ih b2 z rep (by simp only [List.length_cons] at hb; omega) hz]
        rw [ra_cons, if_neg hsw2]
        rfl

/-- Claim C10: for every input the converted document is bracketed by one
outer paragraph pair: the output starts with `<p>` and ends with `</p>`,
the paragraph wrap surviving the final code-fence substitution. -/
theorem c10_outer_paragraph :
    ∀ s : Str, ∃ t : Str, markdown_to_html s = "<p>".toList ++ t ++ "</p>".toList := by
  intro s
  have hz : btick ∉ "</p>".toList := by decide
  have hp : ∀ c ∈ "<p>".toList, ¬ c = btick := by decide
  refine ⟨replaceAll fence macClose (replaceAll fence macOpen
    (replaceAll ("\n\n".toList) ("</p><p>".toList) (listPass (boldPass (headerPass s))))), ?_⟩
  rw [markdown_to_html, codePass, paraPass]
  rw [ra_fence_suf ("<p>".toList
      ++ replaceAll ("\n\n".toList) ("</p><p>".toList) (listPass (boldPass (headerPass s)))).length
    _ _ macOpen le_rfl hz]
  rw [ra_fence_pre _ _ macOpen hp]
  rw [ra_fence_suf ("<p>".toList ++ replaceAll fence macOpen
      (replaceAll ("\n\n".toList) ("</p><p>".toList) (listPass (boldPass (headerPass s))))).length
    _ _ macClose le_rfl hz]
  rw [ra_fence_pre _ _ macClose hp]

/-- Claim C9: `convert("")` on the empty input returns the empty-paragraph
string `"<p></p>"` without failing. -/
theorem c9_empty_input : markdown_to_html ("".toList) = "<p></p>".toList := by
  decide

/-- Claim C2 (counterexample): on input `"# Title\n## Sub"` the level-1
header tag is never closed: no `</h1>` occurs anywhere in the output, so the
opening level-1 tag at `Title` is not "immediately closed" where the level-2
tag opens — the tag emitted there is a level-3 closer. -/
theorem c2_no_h1_closer :
    hasSubstr ("</h1>".toList) (markdown_to_html ("# Title\n## Sub".toList)) = false := by
  decide

/-- Claim C2 (amended): `convert("# Title\n## Sub")` yields exactly
`"<p><h1>Title</h3>\n<h2> Sub</p>"`: an opening level-1 tag at `Title`,
terminated at the point where the level-2 tag opens by a level-3 closing tag
`</h3>` (not a level-1 closer), then the level-2 opening tag before
`" Sub"`, which is left unclosed for the rest of the output. -/
theorem c2_exact_output :
    markdown_to_html ("# Title\n## Sub".toList)
      = "<p><h1>Title</h3>\n<h2> Sub</p>".toList := by
  decide

/-- Claim C1 (code bug, evaluated at the failing input `"```x```"`): both
fences are replaced by the opening code-macro construct — the second global
replace on line 196 finds no fence left, so the closing construct never
appears in the output, although the spec says the second fence becomes the
closing construct. -/
theorem c1_fences_all_open :
    markdown_to_html ("```x```".toList)
        = "<p>".toList ++ macOpen ++ "x".toList ++ macOpen ++ "</p>".toList
      ∧ hasSubstr macClose (markdown_to_html ("```x```".toList)) = false := by
  constructor
  · decide
  · decide

/-- Claim C7: recording usage replaces rather than accumulates: after
`record_usage n` then `record_usage m` the stored count is `m`, the state is
the same as if only `record_usage m` had run from any state, and the cost
query sees only the most recent total. -/
theorem c7_record_usage_replaces :
    ∀ (st st2 : ClaudeState) (n m : Nat),
      record_usage (record_usage st n) m = record_usage st2 m
        ∧ (record_usage (record_usage st n) m).tokens_used = m
        ∧ get_cost (record_usage (record_usage st n) m) = get_cost (record_usage st2 m) := by
  intro st st2 n m
  exact ⟨rfl, rfl, rfl⟩

/-- Claim C8: `reset` sets the stored token count to zero and a subsequent
cost query returns 0; in particular `record_usage 1000; reset; get_cost`
returns 0. -/
theorem c8_reset_then_zero_cost :
    ∀ st : ClaudeState,
      (reset_tokens st).tokens_used = 0
        ∧ get_cost (reset_tokens st) = 0
        ∧ get_cost (reset_tokens (record_usage st 1000)) = 0 := by
  intro st
  refine ⟨rfl, ?_, ?_⟩
  · show get_cost { tokens_used := 0 } = 0
    norm_num [get_cost, pyInt, round4, roundHalfEven]
  · show get_cost { tokens_used := 0 } = 0
    norm_num [get_cost, pyInt, round4, roundHalfEven]
